import Mathlib

/-!
Verification development for the yorisoi chunk-to-transcript and
chunked-summarization pipeline (`server.js` and its storage helpers).

JS strings are embedded as `String`/`List Char` (all characters appearing in
the repository are in the Basic Multilingual Plane, where JS `.length` agrees
with the code-point count).  Loops whose progress is data-dependent are
embedded with an explicit fuel argument; `none` means the fuel was exhausted,
and a loop whose state repeats verbatim returns `none` for every fuel, which
is how divergence of the source loop is expressed.
-/

/-! ### JS whitespace, trim, and lastIndexOf -/

/-- The character class matched by the JavaScript regexp `\s`. -/
def isJsWs (c : Char) : Bool :=
  c == ' ' || c == '\t' || c == '\n' || c == '\x0b' || c == '\x0c' || c == '\r' ||
  c == ' ' || c == ' ' || (0x2000 ≤ c.val.toNat && c.val.toNat ≤ 0x200A) ||
  c == ' ' || c == ' ' || c == ' ' || c == ' ' ||
  c == '　' || c == '﻿'

/-- JS `String.prototype.trim` on the character list of a string. -/
def jsTrim (l : List Char) : List Char :=
  ((l.dropWhile isJsWs).reverse.dropWhile isJsWs).reverse

/-- `transcript.replace(/\s/g, "")` — the transcript with all JS whitespace removed. -/
def jsStripWs (t : String) : List Char := t.data.filter (fun c => !isJsWs c)

/-- JS `s.lastIndexOf(c, pos)` for a single-character needle: the largest index
`≤ pos` holding `c`, or `-1`. -/
def jsLastIndexOf (s : List Char) (c : Char) (pos : Nat) : Int :=
  match ((s.take (pos + 1)).enum.filter (fun p => p.snd == c)).getLast? with
  | some p => Int.ofNat p.fst
  | none => -1

/-! ### Transcript Chunker (`splitTranscript`, server.js:280-293)

```js
function splitTranscript(text, chunkChars = 1800) {
  const normalized = (text || "").replace(/\r/g, "");
  const parts = [];
  let i = 0;
  while (i < normalized.length) {
    let end = Math.min(i + chunkChars, normalized.length);
    const cut = normalized.lastIndexOf("。", end + 100);
    if (cut > end - 200) end = cut + 1;
    parts.push(normalized.slice(i, end).trim());
    i = end;
  }
  return parts.filter(Boolean);
}
```
-/

/-- One iteration of the `while` loop body of `splitTranscript`: the value the
cursor `i` is advanced to (the final `end`). -/
def splitEnd (s : List Char) (chunk i : Nat) : Nat :=
  let endRaw := min (i + chunk) s.length
  let cut : Int := jsLastIndexOf s '。' (endRaw + 100)
  if cut > (endRaw : Int) - 200 then (cut + 1).toNat else endRaw

/-- The `while` loop of `splitTranscript`, with fuel.  The loop condition is
tested before fuel is consumed, so `none` is returned exactly when the fuel
runs out with the loop still running. -/
def splitLoop (s : List Char) (chunk : Nat) : Nat → Nat → Option (List (List Char))
  | 0, i => if i < s.length then none else some []
  | fuel + 1, i =>
    if i < s.length then
      (splitLoop s chunk fuel (splitEnd s chunk i)).map
        (fun rest => jsTrim ((s.take (splitEnd s chunk i)).drop i) :: rest)
    else some []

/-- `splitTranscript(text, chunkChars)` with fuel for the scanning loop. -/
def splitTranscript (fuel : Nat) (text : List Char) (chunk : Nat) :
    Option (List (List Char)) :=
  let normalized := text.filter (fun c => !(c == '\r'))
  (splitLoop normalized chunk fuel 0).map (List.filter (fun p => !p.isEmpty))

/-! ### Mode Classifier (`detectMode`, server.js:295-304) -/

def surgicalKeywords : List String :=
  ["手術", "術前", "術後", "麻酔", "合併症", "入院", "同意", "縫合", "ドレーン", "内視鏡"]

def medKeywords : List String :=
  ["処方", "mg", "投与", "検査", "採血", "画像", "CT", "MRI", "レントゲン", "結果", "診断"]

def planKeywords : List String :=
  ["方針", "次回", "再診", "予約", "計画"]

/-- `containsSub needle hay` tests whether `needle` occurs as a contiguous
substring of `hay`; this is what `/(k1|k2|…)/.test(text)` checks for each
literal alternative. -/
def containsSub (needle : List Char) : List Char → Bool
  | [] => needle.isPrefixOf []
  | c :: t => needle.isPrefixOf (c :: t) || containsSub needle t

/-- Number of matches of `text.match(/(k1|k2|…)/g)`: scan left to right, at each
position take the first alternative that matches, consume it, and continue.
All alternatives used in the source are non-empty, so the `max · 1` guard never
changes the amount consumed. -/
def countMatches (alts : List (List Char)) : Nat → List Char → Nat
  | 0, _ => 0
  | _, [] => 0
  | fuel + 1, c :: rest =>
    match alts.find? (fun k => k.isPrefixOf (c :: rest)) with
    | some k => 1 + countMatches alts fuel ((c :: rest).drop (max k.length 1))
    | none => countMatches alts fuel rest

/-- `detectMode(t)` from server.js. -/
def detectMode (t : String) : String :=
  let text := t.data
  let isSurgery := surgicalKeywords.any (fun k => containsSub k.data text)
  let medTerms := countMatches (medKeywords.map String.data) text.length text
  let hasPlan := planKeywords.any (fun k => containsSub k.data text)
  let isLowInfo := text.length < 800 ∨ medTerms + (if hasPlan then 1 else 0) < 2
  if isSurgery then "surgery"
  else if isLowInfo then "bridge"
  else "normal"

/-! ### Delivery Formatter (`safeJoinLines` / `formatShortCard`, server.js:384-396)

```js
function safeJoinLines(arr) {
  return (arr || []).filter(Boolean).map(x => `- ${x}`).join("\n");
}
function formatShortCard(reduced, mode) {
  return [
    mode === "surgery" ? "■診察メモ（手術のご説明）" : "■診察メモ",
    `🕊️ ${reduced.short_card?.greeting || "受診おつかれさまでした。"}`,
    (reduced.short_card?.summary_top3?.length ? "🧾 きょうの要点\n" + safeJoinLines(reduced.short_card.summary_top3) : ""),
    (reduced.short_card?.actions_top3?.length ? "✅ あなたがやること\n" + safeJoinLines(reduced.short_card.actions_top3) : ""),
    (reduced.short_card?.red_flags_top3?.length ? "🚩 こんな時は連絡/受診\n" + safeJoinLines(reduced.short_card.red_flags_top3) : "")
  ].filter(Boolean).join("\n");
}
```
A missing `greeting` behaves like the empty string through `||`, so it is
embedded as a plain `String`.
-/

structure ShortCard where
  greeting : String
  summary_top3 : List String
  actions_top3 : List String
  red_flags_top3 : List String
deriving DecidableEq

structure Reduced where
  short_card : Option ShortCard
deriving DecidableEq

def scGreeting (r : Reduced) : String :=
  match r.short_card with
  | some sc => sc.greeting
  | none => ""

def scSummary (r : Reduced) : List String :=
  match r.short_card with
  | some sc => sc.summary_top3
  | none => []

def scActions (r : Reduced) : List String :=
  match r.short_card with
  | some sc => sc.actions_top3
  | none => []

def scFlags (r : Reduced) : List String :=
  match r.short_card with
  | some sc => sc.red_flags_top3
  | none => []

/-- `Array.prototype.join("\n")` on the character lists. -/
def joinNlData : List (List Char) → List Char
  | [] => []
  | [a] => a
  | a :: b :: rest => a ++ '\n' :: joinNlData (b :: rest)

def joinNl (l : List String) : String := ⟨joinNlData (l.map String.data)⟩

/-- `safeJoinLines(arr)` from server.js. -/
def safeJoinLines (arr : List String) : String :=
  joinNl ((arr.filter (fun x => !x.isEmpty)).map (fun x => "- " ++ x))

/-- `formatShortCard(reduced, mode)` from server.js. -/
def formatShortCard (reduced : Reduced) (mode : String) : String :=
  joinNl (([
    (if mode = "surgery" then "■診察メモ（手術のご説明）" else "■診察メモ"),
    "🕊️ " ++ (if (scGreeting reduced).isEmpty then "受診おつかれさまでした。"
              else scGreeting reduced),
    (if scSummary reduced ≠ [] then
      "🧾 きょうの要点\n" ++ safeJoinLines (scSummary reduced) else ""),
    (if scActions reduced ≠ [] then
      "✅ あなたがやること\n" ++ safeJoinLines (scActions reduced) else ""),
    (if scFlags reduced ≠ [] then
      "🚩 こんな時は連絡/受診\n" ++ safeJoinLines (scFlags reduced) else "")
  ]).filter (fun s => !s.isEmpty))

/-- Split a character list at newline characters (the lines of the message). -/
def splitNl : List Char → List (List Char)
  | [] => [[]]
  | c :: rest =>
    if c = '\n' then [] :: splitNl rest
    else
      match splitNl rest with
      | [] => [[c]]
      | l :: ls => (c :: l) :: ls

/-- A rendered line is a bullet item iff it starts with `"- "`. -/
def bulletP (l : List Char) : Bool := decide (l.take 2 = ['-', ' '])

/-- Number of bullet-item lines in a rendered message. -/
def countBullets (s : String) : Nat := (splitNl s.data).countP bulletP

/-- Number of non-empty entries of a list — exactly the entries
`filter(Boolean)` keeps. -/
def nECount (l : List String) : Nat := (l.filter (fun x => !x.isEmpty)).length

/-- The 16-character transcript ありがとうございました助かります: realistic,
beyond the 15-character short-recording guard, and without any 。. -/
def shortNoPunct : List Char := "ありがとうございました助かります".data

/-- A reduce output whose `summary_top3` has four entries — nothing in the
source prevents the generation backend from returning it. -/
def overfullReduced : Reduced :=
  ⟨some ⟨"", ["要点1", "要点2", "要点3", "要点4"], [], []⟩⟩

/-! ### Poll-completion pipeline (`GET /jobs/:id`, server.js:164-234)

The pure part of the route after the transcript has been extracted and
trimmed: the short-transcript guard (server.js:180-182), then chunking, one
generation call per chunk, one reduce call, and short-card formatting.
-/

structure PollResult where
  status : String
  summary : String
  genCalls : Nat
deriving DecidableEq

def placeholderMsg : String := "（短い録音のためメモは作成しませんでした）"

/-- The poll-completion logic as a function of the extracted transcript.
`gen n` is the parsed outcome available after `n` chunk calls (the reduce
call; `none` means it threw, which aborts the request), and `genCalls` counts
every generation call issued.  Prompt text is an opaque transform and is not
tracked. -/
def pollPipeline (gen : Nat → Option Reduced) (fuel : Nat) (t : String) :
    Option PollResult :=
  if t.isEmpty || (jsStripWs t).length < 15 then
    some ⟨"DONE", placeholderMsg, 0⟩
  else
    match splitTranscript fuel t.data 1800 with
    | none => none
    | some parts =>
      match gen parts.length with
      | none => none
      | some reduced =>
        some ⟨"DONE", formatShortCard reduced (detectMode t), parts.length + 1⟩

/-! ### Generation-reply parser (`geminiJson`, server.js:362-382)

```js
const text = resp.response.text();
const m = text.match(/\x7b[\s\S]*\x7d$/);
const raw = m ? m[0] : text;
try { return JSON.parse(raw); } catch (e) { return <empty default shape>; }
```
`JSON.parse` is the platform's JSON parser, embedded below as a fuel-based
recursive-descent parser; number tokens are kept as their lexemes, which does
not affect any claim (both sides of every comparison go through the same
parser).
-/

inductive Json where
  | jnull : Json
  | jbool : Bool → Json
  | jnum : String → Json
  | jstr : String → Json
  | jarr : List Json → Json
  | jobj : List (String × Json) → Json

def jsonWs (c : Char) : Bool := c == ' ' || c == '\t' || c == '\n' || c == '\r'

def skipWsJ (s : List Char) : List Char := s.dropWhile jsonWs

def hexVal (c : Char) : Option Nat :=
  if '0' ≤ c ∧ c ≤ '9' then some (c.toNat - '0'.toNat)
  else if 'a' ≤ c ∧ c ≤ 'f' then some (c.toNat - 'a'.toNat + 10)
  else if 'A' ≤ c ∧ c ≤ 'F' then some (c.toNat - 'A'.toNat + 10)
  else none

/-- Body of a JSON string literal, after the opening quote. -/
def parseStringBody : Nat → List Char → Option (List Char × List Char)
  | 0, _ => none
  | _, [] => none
  | fuel + 1, c :: rest =>
    if c = '"' then some ([], rest)
    else if c = '\\' then
      match rest with
      | [] => none
      | 'u' :: h1 :: h2 :: h3 :: h4 :: rest2 =>
        match hexVal h1, hexVal h2, hexVal h3, hexVal h4 with
        | some a, some b, some c2, some d =>
          (parseStringBody fuel rest2).map
            (fun p => (Char.ofNat (((a * 16 + b) * 16 + c2) * 16 + d) :: p.1, p.2))
        | _, _, _, _ => none
      | e :: rest2 =>
        let dec : Option Char :=
          if e = '"' then some '"'
          else if e = '\\' then some '\\'
          else if e = '/' then some '/'
          else if e = 'b' then some '\x08'
          else if e = 'f' then some '\x0c'
          else if e = 'n' then some '\n'
          else if e = 'r' then some '\r'
          else if e = 't' then some '\t'
          else none
        match dec with
        | some d => (parseStringBody fuel rest2).map (fun p => (d :: p.1, p.2))
        | none => none
    else (parseStringBody fuel rest).map (fun p => (c :: p.1, p.2))

def numChar (c : Char) : Bool :=
  c.isDigit || c == '-' || c == '+' || c == '.' || c == 'e' || c == 'E'

/-- One JSON value.  Object and array member lists are parsed by re-entering
the value parser on a re-opened bracket, which keeps the recursion structural
in the fuel. -/
def parseValue : Nat → List Char → Option (Json × List Char)
  | 0, _ => none
  | fuel + 1, s0 =>
    match skipWsJ s0 with
    | [] => none
    | c :: rest =>
      if c = '\x7b' then
        match skipWsJ rest with
        | '\x7d' :: r2 => some (.jobj [], r2)
        | '"' :: r2 =>
          match parseStringBody fuel r2 with
          | none => none
          | some (key, r3) =>
            match skipWsJ r3 with
            | ':' :: r4 =>
              match parseValue fuel r4 with
              | none => none
              | some (v, r5) =>
                match skipWsJ r5 with
                | ',' :: r6 =>
                  match parseValue fuel ('\x7b' :: r6) with
                  | some (.jobj kvs, r7) => some (.jobj ((⟨key⟩, v) :: kvs), r7)
                  | _ => none
                | '\x7d' :: r6 => some (.jobj [(⟨key⟩, v)], r6)
                | _ => none
            | _ => none
        | _ => none
      else if c = '[' then
        match skipWsJ rest with
        | ']' :: r2 => some (.jarr [], r2)
        | _ =>
          match parseValue fuel rest with
          | none => none
          | some (v, r3) =>
            match skipWsJ r3 with
            | ',' :: r4 =>
              match parseValue fuel ('[' :: r4) with
              | some (.jarr vs, r5) => some (.jarr (v :: vs), r5)
              | _ => none
            | ']' :: r4 => some (.jarr [v], r4)
            | _ => none
      else if c = '"' then
        (parseStringBody fuel rest).map (fun p => (.jstr ⟨p.1⟩, p.2))
      else if c = 't' then
        if ['r', 'u', 'e'].isPrefixOf rest then some (.jbool true, rest.drop 3) else none
      else if c = 'f' then
        if ['a', 'l', 's', 'e'].isPrefixOf rest then some (.jbool false, rest.drop 4) else none
      else if c = 'n' then
        if ['u', 'l', 'l'].isPrefixOf rest then some (.jnull, rest.drop 3) else none
      else if c.isDigit || c = '-' then
        let lex := (c :: rest).takeWhile numChar
        some (.jnum ⟨lex⟩, (c :: rest).drop lex.length)
      else none

/-- `JSON.parse`: one value, then only trailing whitespace. -/
def jsonParse (s : List Char) : Option Json :=
  match parseValue (s.length + 2) s with
  | some (j, rest) => if skipWsJ rest = [] then some j else none
  | none => none

/-- The fallback shape returned when `JSON.parse` throws (server.js:380). -/
def defaultShape : Json :=
  .jobj [("summary", .jstr ""), ("actions", .jarr []),
         ("medical", .jobj [("terms", .jarr []), ("meds", .jarr []), ("tests", .jarr [])]),
         ("lifestyle", .jarr []), ("red_flags", .jarr []), ("next_questions", .jarr [])]

/-- `text.match(/\x7b[\s\S]*\x7d$/)` with `m ? m[0] : text`: the regexp (the
braces are written here as their escapes) matches iff the text's last
character is a closing brace and an opening brace occurs before it; the match
runs from the first opening brace to the end of the text. -/
def extractBrace (s : List Char) : List Char :=
  if s.getLast? = some '\x7d' ∧ '\x7b' ∈ s then
    s.drop (s.findIdx (fun c => c == '\x7b'))
  else s

/-- The response-parsing part of `geminiJson` (server.js:362-382). -/
def geminiJson (text : List Char) : Json :=
  match jsonParse (extractBrace text) with
  | some j => j
  | none => defaultShape

/-! ### Object Combiner (`composeMany`, part_001:57-96)

```js
async function composeMany(objects, destFile) {
  const composeOnce = async (sources, destination) => { … };
  let queue = objects.slice();
  let round = 0;
  while (queue.length > 1) {
    const next = [];
    for (let i = 0; i < queue.length; i += 32) {
      const batch = queue.slice(i, i + 32);
      if (batch.length === 1) { next.push(batch[0]); continue; }
      const tmpName = `${destFile.name}.compose.${round}.${Math.floor(i / 32)}`;
      const tmp = destFile.bucket.file(tmpName);
      await composeOnce(batch, tmp);
      next.push(tmp);
    }
    queue = next;
    round++;
  }
  if (queue.length === 1 && queue[0].name !== destFile.name) {
    await queue[0].copy(destFile);
  }
  try { await destFile.bucket.deleteFiles({ prefix: `${destFile.name}.compose.` }); } catch {}
}
```
Each queue entry carries its abstract byte content alongside its name (the
content of a composed object is by definition the concatenation of its
sources' contents), and the storage operations issued are recorded.
-/

/-- A stored object: its name and its abstract byte content. -/
abbrev GcsObj := String × List Nat

inductive GcsOp where
  | compose (sources : List String) (dest : String)
  | copy (src : String) (dest : String)
deriving DecidableEq

def tmpName (dest : String) (round batchIdx : Nat) : String :=
  dest ++ ".compose." ++ toString round ++ "." ++ toString batchIdx

def chunksOfAux {α : Type} (k : Nat) : Nat → List α → List (List α)
  | 0, _ => []
  | _, [] => []
  | fuel + 1, a :: t => ((a :: t).take k) :: chunksOfAux k fuel ((a :: t).drop k)

/-- `queue.slice(i, i + k)` for `i = 0, k, 2k, …`: the queue cut into batches
of at most `k`. -/
def chunksOf {α : Type} (k : Nat) (l : List α) : List (List α) :=
  chunksOfAux k l.length l

/-- One batch of the `for` loop: a singleton batch is forwarded unchanged, any
other batch is composed into the temporary object for this round and batch
index. -/
def composeBatch (dest : String) (round bi : Nat) (batch : List GcsObj) :
    GcsObj × List GcsOp :=
  match batch with
  | [b] => (b, [])
  | _ =>
    ((tmpName dest round bi, (batch.map Prod.snd).flatten),
     [GcsOp.compose (batch.map Prod.fst) (tmpName dest round bi)])

/-- One iteration of the `while` loop: every batch processed in order. -/
def composeRound (dest : String) (round : Nat) (queue : List GcsObj) :
    List GcsObj × List GcsOp :=
  let bs := (chunksOf 32 queue).enum
  (bs.map (fun p => (composeBatch dest round p.fst p.snd).fst),
   (bs.map (fun p => (composeBatch dest round p.fst p.snd).snd)).flatten)

/-- The `while` loop, with fuel; `queue.length` is enough fuel because each
round strictly shrinks a queue of length ≥ 2. -/
def composeLoopAux (dest : String) : Nat → Nat → List GcsObj →
    List GcsObj × List GcsOp × Nat
  | 0, _, queue => (queue, [], 0)
  | fuel + 1, round, queue =>
    if queue.length ≤ 1 then (queue, [], 0)
    else
      let step := composeRound dest round queue
      let nxt := composeLoopAux dest fuel (round + 1) step.fst
      (nxt.fst, step.snd ++ nxt.snd.fst, nxt.snd.snd + 1)

/-- `composeMany(objects, destFile)`: the storage operations issued and the
final queue. -/
def composeMany (objects : List GcsObj) (dest : String) : List GcsOp × List GcsObj :=
  let run := composeLoopAux dest objects.length 0 objects
  match run.fst with
  | [o] =>
    if o.fst ≠ dest then (run.snd.fst ++ [GcsOp.copy o.fst dest], run.fst)
    else (run.snd.fst, run.fst)
  | _ => (run.snd.fst, run.fst)

/-- Number of `while`-loop rounds performed by `composeMany`. -/
def composeRounds (objects : List GcsObj) (dest : String) : Nat :=
  (composeLoopAux dest objects.length 0 objects).snd.snd

/-- The object names created by a sequence of storage operations. -/
def createdNames (ops : List GcsOp) : List String :=
  ops.map (fun op => match op with
    | .compose _ d => d
    | .copy _ d => d)

/-- The name test of the `deleteFiles({ prefix: dest + ".compose." })` cleanup. -/
def hasComposePfx (dest name : String) : Bool :=
  (dest ++ ".compose.").data.isPrefixOf name.data

/-- The created objects still present after the best-effort cleanup. -/
def afterCleanup (ops : List GcsOp) (dest : String) : List String :=
  (createdNames ops).filter (fun n => !hasComposePfx dest n)

/-! ### Idempotent Delivery Gate (part_001:874-892)

```js
const deliveryMarker = bucket.file(`deliveries/${jobId}.done`);
let acquired = false;
try {
  await deliveryMarker.save(…, { ifGenerationMatch: 0 }); // 既存なら412
  acquired = true;
} catch (e) {
  if (e.code === 412) { return res.json({ ok: true, status: "DONE", transcript }); }
  throw e;
}
```
The store is the set of marker object names; GCS `ifGenerationMatch: 0`
rejects the write with code 412 exactly when the object already exists.
-/

def markerName (jobId : String) : String := "deliveries/" ++ jobId ++ ".done"

/-- The conditional create-if-absent write offered by the backing store. -/
def condCreate (store : List String) (name : String) : Except Nat (List String) :=
  if name ∈ store then .error 412 else .ok (name :: store)

/-- The catch handler around the marker write: 412 becomes the normal
`acquired:false` skip branch, everything else is re-thrown. -/
def claimHandler (store : List String) (w : Except Nat (List String)) :
    Except Nat (Bool × List String) :=
  match w with
  | .ok s' => .ok (true, s')
  | .error e => if e = 412 then .ok (false, store) else .error e

/-- `tryClaim(jobId)` — the Delivery Gate. -/
def tryClaim (store : List String) (jobId : String) : Except Nat (Bool × List String) :=
  claimHandler store (condCreate store (markerName jobId))

/-- The results of `n` successive `tryClaim` calls for the same job id. -/
def runClaims (jobId : String) : List String → Nat → List Bool
  | _, 0 => []
  | store, n + 1 =>
    match tryClaim store jobId with
    | .ok (b, s') => b :: runClaims jobId s' n
    | .error _ => []

/-! ### Helper lemmas -/

theorem dropWhile_eq_self_of_forall {p : Char → Bool} :
    ∀ l : List Char, (∀ c ∈ l, p c = false) → l.dropWhile p = l := by
  intro l h
  cases l with
  | nil => rfl
  | cons c t =>
    simp [List.dropWhile, h c (by simp)]

theorem jsTrim_eq_self {l : List Char} (h : ∀ c ∈ l, isJsWs c = false) :
    jsTrim l = l := by
  unfold jsTrim
  rw [dropWhile_eq_self_of_forall l h,
    dropWhile_eq_self_of_forall l.reverse (by intro c hc; exact h c (List.mem_reverse.mp hc)),
    List.reverse_reverse]

theorem mem_enumFrom_lt {α : Type} :
    ∀ (l : List α) (n : Nat) (p : Nat × α), p ∈ l.enumFrom n → p.fst < n + l.length := by
  intro l
  induction l with
  | nil => intro n p h; cases h
  | cons a t ih =>
    intro n p h
    simp only [List.enumFrom] at h
    rcases List.mem_cons.mp h with h | h
    · subst h; simp
    · have := ih (n + 1) p h
      simp only [List.length_cons]
      omega

theorem jsLastIndexOf_lt_length (s : List Char) (c : Char) (pos : Nat) :
    jsLastIndexOf s c pos < (s.length : Int) := by
  unfold jsLastIndexOf
  cases hg : ((s.take (pos + 1)).enum.filter (fun p => p.snd == c)).getLast? with
  | none => simp; omega
  | some p =>
    have hx : p ∈ ((s.take (pos + 1)).enum.filter (fun q => q.snd == c)).getLast? :=
      Option.mem_def.mpr hg
    obtain ⟨hne, hpe⟩ := List.mem_getLast?_eq_getLast hx
    have hmem : p ∈ (s.take (pos + 1)).enum.filter (fun q => q.snd == c) := by
      rw [hpe]; exact List.getLast_mem hne
    have hmem2 : p ∈ (s.take (pos + 1)).enum := (List.mem_filter.mp hmem).1
    have hlt : p.fst < 0 + (s.take (pos + 1)).length := mem_enumFrom_lt _ 0 p hmem2
    have htk : (s.take (pos + 1)).length = min (pos + 1) s.length := List.length_take _ _
    have : p.fst < s.length := by omega
    simpa using this

theorem splitEnd_le_length (s : List Char) (chunk i : Nat) :
    splitEnd s chunk i ≤ s.length := by
  have h := jsLastIndexOf_lt_length s '。' (min (i + chunk) s.length + 100)
  unfold splitEnd
  dsimp only
  split
  · omega
  · omega

theorem take_drop_chain {s : List Char} {i e : Nat} (hie : i ≤ e) (hel : e ≤ s.length) :
    (s.take e).drop i ++ s.drop e = s.drop i := by
  conv_rhs => rw [← List.take_append_drop e s]
  rw [List.drop_append_eq_append_drop]
  have hlen : (s.take e).length = e := List.length_take_of_le hel
  rw [hlen]
  have : i - e = 0 := by omega
  rw [this, List.drop_zero]

theorem splitLoop_spec (s : List Char) (chunk : Nat)
    (hws : ∀ c ∈ s, isJsWs c = false)
    (hprog : ∀ j, j < s.length → j < splitEnd s chunk j) :
    ∀ fuel i, s.length ≤ i + fuel →
      ∃ parts, splitLoop s chunk fuel i = some parts ∧
        parts.flatten = s.drop i ∧ ∀ p ∈ parts, p ≠ [] := by
  intro fuel
  induction fuel with
  | zero =>
    intro i hi
    have hd : s.drop i = [] := List.drop_eq_nil_of_le (by omega)
    refine ⟨[], ?_, by simp [hd], by simp⟩
    simp only [splitLoop]
    rw [if_neg (by omega)]
  | succ n ih =>
    intro i hi
    by_cases hil : i < s.length
    · have he1 : i < splitEnd s chunk i := hprog i hil
      have he2 : splitEnd s chunk i ≤ s.length := splitEnd_le_length s chunk i
      obtain ⟨parts, hp1, hp2, hp3⟩ := ih (splitEnd s chunk i) (by omega)
      have hslice : jsTrim ((s.take (splitEnd s chunk i)).drop i) =
          (s.take (splitEnd s chunk i)).drop i := by
        apply jsTrim_eq_self
        intro c hc
        exact hws c (List.mem_of_mem_take (List.mem_of_mem_drop hc))
      have hlenslice : ((s.take (splitEnd s chunk i)).drop i).length =
          splitEnd s chunk i - i := by
        rw [List.length_drop, List.length_take_of_le he2]
      refine ⟨jsTrim ((s.take (splitEnd s chunk i)).drop i) :: parts, ?_, ?_, ?_⟩
      · simp only [splitLoop]
        rw [if_pos hil, hp1]
        rfl
      · rw [hslice, List.flatten_cons, hp2, take_drop_chain (by omega) he2]
      · intro p hp
        rcases List.mem_cons.mp hp with hp | hp
        · subst hp
          rw [hslice]
          intro hnil
          rw [hnil] at hlenslice
          simp at hlenslice
          omega
        · exact hp3 p hp
    · have hd : s.drop i = [] := List.drop_eq_nil_of_le (by omega)
      refine ⟨[], ?_, by simp [hd], by simp⟩
      simp only [splitLoop]
      rw [if_neg hil]

/-! ### Claim theorems -/

/-- C8: `detectMode` is pure and (a) any transcript containing a
procedural/surgical keyword is classified `surgery`, regardless of length or
other content, because that test is performed first; (b) any transcript with
no surgical keyword, zero medical-plan keyword matches, no plan keyword, and
fewer than 800 characters is classified `bridge`. -/
theorem detectMode_spec :
    (∀ t : String,
      surgicalKeywords.any (fun k => containsSub k.data t.data) = true →
      detectMode t = "surgery") ∧
    (∀ t : String,
      surgicalKeywords.any (fun k => containsSub k.data t.data) = false →
      countMatches (medKeywords.map String.data) t.length t.data = 0 →
      planKeywords.any (fun k => containsSub k.data t.data) = false →
      t.length < 800 →
      detectMode t = "bridge") := by
  constructor
  · intro t hsurg
    simp only [detectMode, hsurg, if_true]
  · intro t hsurg _hmed _hplan hlen
    simp only [detectMode, hsurg]
    simp [hlen]

/-- A concrete run of C8: a transcript mentioning 手術 is `surgery`; the spec's
bridge scenario transcript is `bridge`. -/
theorem detectMode_spec_witness :
    detectMode "本日は手術について説明します" = "surgery" ∧
    detectMode "痛みはありますか。いいえ、大丈夫です。" = "bridge" :=
  ⟨detectMode_spec.1 _ (by decide),
   detectMode_spec.2 _ (by decide) (by decide) (by decide) (by decide)⟩

theorem runClaims_all_false {jobId : String} :
    ∀ n (store : List String), markerName jobId ∈ store →
      (runClaims jobId store n).count true = 0 := by
  intro n
  induction n with
  | zero => intro store _; rfl
  | succ n ih =>
    intro store hmem
    simp only [runClaims, tryClaim, condCreate, if_pos hmem, claimHandler, if_pos rfl]
    simp [ih store hmem]

theorem runClaims_count_le_one {jobId : String} :
    ∀ n (store : List String), (runClaims jobId store n).count true ≤ 1 := by
  intro n store
  cases n with
  | zero => simp [runClaims]
  | succ n =>
    by_cases hmem : markerName jobId ∈ store
    · rw [runClaims_all_false (n + 1) store hmem]; omega
    · simp only [runClaims, tryClaim, condCreate, if_neg hmem, claimHandler]
      have h0 := @runClaims_all_false jobId n (markerName jobId :: store)
        (List.mem_cons_self _ _)
      simp [List.count_cons, h0]

/-- C1: on a store not yet holding the delivery marker for `jobId`, the first
`tryClaim` returns `acquired:true` and installs the marker; on any store
holding the marker every `tryClaim` returns `acquired:false` and leaves the
store unchanged (the normal skip branch); any run of successive claims sees
`acquired:true` at most once; and any write failure whose code is not 412
propagates out of the handler as a hard error. -/
theorem tryClaim_spec (jobId : String) (store : List String)
    (hfresh : markerName jobId ∉ store) :
    tryClaim store jobId = .ok (true, markerName jobId :: store) ∧
    (∀ s' : List String, markerName jobId ∈ s' → tryClaim s' jobId = .ok (false, s')) ∧
    (∀ (n : Nat) (s0 : List String), (runClaims jobId s0 n).count true ≤ 1) ∧
    (∀ e : Nat, e ≠ 412 → ∀ s' : List String, claimHandler s' (.error e) = .error e) := by
  refine ⟨?_, ?_, ?_, ?_⟩
  · simp [tryClaim, condCreate, if_neg hfresh, claimHandler]
  · intro s' hmem
    simp [tryClaim, condCreate, if_pos hmem, claimHandler]
  · intro n s0; exact runClaims_count_le_one n s0
  · intro e he s'
    simp [claimHandler, he]

/-- A concrete run of C1 on the empty store for job id `job-1`. -/
theorem tryClaim_spec_witness :
    tryClaim [] "job-1" = .ok (true, [markerName "job-1"]) ∧
    (∀ s' : List String, markerName "job-1" ∈ s' → tryClaim s' "job-1" = .ok (false, s')) ∧
    (∀ (n : Nat) (s0 : List String), (runClaims "job-1" s0 n).count true ≤ 1) ∧
    (∀ e : Nat, e ≠ 412 → ∀ s' : List String, claimHandler s' (.error e) = .error e) :=
  tryClaim_spec "job-1" [] (by decide)

/-- C3 (counterexample): for the text consisting of the single carriage-return
character, `splitTranscript` terminates with no segments (the `\r` is removed
by the normalisation step), so concatenating the returned segments yields the
empty text and does not reconstitute the original — a character is lost. -/
theorem splitTranscript_cex :
    splitTranscript 5 ['\r'] 1800 = some [] ∧
    (([] : List (List Char)).flatten ≠ ['\r']) := by
  decide

/-- C3 (amended): for every text free of carriage returns and of JS whitespace,
and on which every window step of the scanning loop advances the cursor, the
chunker terminates and concatenating its segments in order reconstitutes the
original text with no characters lost or duplicated.  (In general the claim is
false: `\r` characters are deleted, each segment is trimmed, and on texts where
the window step stalls the loop never terminates.) -/
theorem splitTranscript_roundtrip (text : List Char) (chunk : Nat)
    (hcr : ∀ c ∈ text, c ≠ '\r')
    (hws : ∀ c ∈ text, isJsWs c = false)
    (hprog : ∀ i, i < text.length → i < splitEnd text chunk i) :
    ∃ parts, splitTranscript (text.length + 1) text chunk = some parts ∧
      parts.flatten = text := by
  have hnorm : text.filter (fun c => !(c == '\r')) = text := by
    rw [List.filter_eq_self]
    intro c hc
    simpa using hcr c hc
  obtain ⟨parts, hp1, hp2, hp3⟩ :=
    splitLoop_spec text chunk hws hprog (text.length + 1) 0 (by omega)
  refine ⟨parts, ?_, by simpa using hp2⟩
  unfold splitTranscript
  dsimp only
  rw [hnorm, hp1]
  have hfil : parts.filter (fun p => !p.isEmpty) = parts := by
    rw [List.filter_eq_self]
    intro p hp
    simpa [List.isEmpty_iff] using hp3 p hp
  simp [hfil]

/-- A concrete run of the amended C3 on a five-character text of sentence
terminators, where every loop step advances. -/
theorem splitTranscript_roundtrip_witness :
    ∃ parts,
      splitTranscript ((List.replicate 5 '。').length + 1) (List.replicate 5 '。') 1800 =
        some parts ∧
      parts.flatten = List.replicate 5 '。' :=
  splitTranscript_roundtrip (List.replicate 5 '。') 1800
    (by decide) (by decide) (by decide)

/-- C4 (code bug): at the pipeline's own call `splitTranscript(transcript, 1800)`
on a 16-character transcript with no sentence-ending 。, the loop never
terminates: `lastIndexOf("。", end+100)` returns `-1`, `-1 > end-200` holds, so
`end` is set to `0` and the cursor never advances.  The model returns `none`
for every fuel, i.e. the source loop diverges, contradicting the claimed
termination with a finite segment sequence. -/
theorem splitTranscript_diverges_short :
    ∀ fuel, splitTranscript fuel shortNoPunct 1800 = none := by
  have hnorm : shortNoPunct.filter (fun c => !(c == '\r')) = shortNoPunct := by decide
  have hstall : splitEnd shortNoPunct 1800 0 = 0 := by decide
  have hlen : 0 < shortNoPunct.length := by decide
  have hloop : ∀ fuel, splitLoop shortNoPunct 1800 fuel 0 = none := by
    intro fuel
    induction fuel with
    | zero => simp [splitLoop, hlen]
    | succ n ih => simp [splitLoop, hlen, hstall, ih]
  intro fuel
  simp [splitTranscript, hnorm, hloop]

/-- C9 (code bug): for `maxChars = 1` and the one-character transcript `"a"`
(a transcript of exactly `maxChars` characters), the claim promises exactly one
segment, but the loop diverges: `cut = -1 > 1 - 200` forces `end = 0` and the
cursor never advances, so no segment list is ever produced. -/
theorem splitTranscript_diverges_boundary :
    ∀ fuel, splitTranscript fuel ['a'] 1 = none := by
  have hstall : splitEnd ['a'] 1 0 = 0 := by decide
  have hloop : ∀ fuel, splitLoop ['a'] 1 fuel 0 = none := by
    intro fuel
    induction fuel with
    | zero => simp [splitLoop]
    | succ n ih => simp [splitLoop, hstall, ih]
  intro fuel
  simp [splitTranscript, hloop]

theorem strData_append (a b : String) : (a ++ b).data = a.data ++ b.data := by
  cases a; cases b; rfl

theorem splitNl_ne_nil : ∀ l : List Char, splitNl l ≠ [] := by
  intro l
  cases l with
  | nil => simp [splitNl]
  | cons c rest =>
    simp only [splitNl]
    split
    · simp
    · cases h : splitNl rest with
      | nil => simp
      | cons a as => simp

theorem splitNl_append_nl :
    ∀ a b : List Char, splitNl (a ++ '\n' :: b) = splitNl a ++ splitNl b := by
  intro a
  induction a with
  | nil => intro b; simp [splitNl]
  | cons c t ih =>
    intro b
    by_cases hc : c = '\n'
    · subst hc
      simp only [List.cons_append, splitNl, if_pos rfl, List.append_eq]
      rw [ih b]
      rfl
    · simp only [List.cons_append, splitNl, if_neg hc, List.append_eq]
      rw [ih b]
      cases h : splitNl t with
      | nil => exact absurd h (splitNl_ne_nil t)
      | cons l ls => simp

theorem splitNl_no_nl : ∀ l : List Char, '\n' ∉ l → splitNl l = [l] := by
  intro l
  induction l with
  | nil => intro _; rfl
  | cons c t ih =>
    intro h
    have hc : c ≠ '\n' := by
      intro e; exact h (by simp [e])
    have ht : '\n' ∉ t := fun m => h (List.mem_cons_of_mem _ m)
    simp only [splitNl, if_neg hc, ih ht]

theorem countB_append_nl (a b : List Char) :
    (splitNl (a ++ '\n' :: b)).countP bulletP =
      (splitNl a).countP bulletP + (splitNl b).countP bulletP := by
  rw [splitNl_append_nl, List.countP_append]

theorem countB_joinNlData : ∀ M : List (List Char),
    (splitNl (joinNlData M)).countP bulletP =
      (M.map (fun m => (splitNl m).countP bulletP)).sum := by
  intro M
  induction M with
  | nil => simp [joinNlData, splitNl]; rfl
  | cons a rest ih =>
    cases rest with
    | nil => simp [joinNlData]
    | cons b rest2 =>
      simp only [joinNlData]
      rw [countB_append_nl, ih]
      simp

theorem countB_no_nl (s : List Char) (h : '\n' ∉ s) :
    (splitNl s).countP bulletP = if bulletP s then 1 else 0 := by
  rw [splitNl_no_nl s h]
  simp [List.countP_cons, List.countP_nil]

theorem bulletP_cons_ne (c : Char) (l : List Char) (hc : c ≠ '-') :
    bulletP (c :: l) = false := by
  simp [bulletP, List.take_succ_cons, hc]

theorem bulletP_dash (x : List Char) : bulletP ('-' :: ' ' :: x) = true := by
  simp [bulletP, List.take_succ_cons]

theorem sum_map_one {α : Type} : ∀ l : List α, (l.map (fun _ => (1 : Nat))).sum = l.length := by
  intro l
  induction l with
  | nil => rfl
  | cons a t ih => simp [ih]; omega

theorem countBullets_joinNl (L : List String) :
    countBullets (joinNl L) = (L.map (fun s => (splitNl s.data).countP bulletP)).sum := by
  show (splitNl (joinNlData (L.map String.data))).countP bulletP = _
  rw [countB_joinNlData, List.map_map]
  rfl

theorem countB_empty_string (s : String) (h : s.isEmpty = true) :
    (splitNl s.data).countP bulletP = 0 := by
  have : s = "" := (String.isEmpty_iff s).mp h
  subst this
  decide

theorem sum_map_filter_isEmpty (f : String → Nat)
    (hf : ∀ s : String, s.isEmpty = true → f s = 0) :
    ∀ L : List String, ((L.filter (fun s => !s.isEmpty)).map f).sum = (L.map f).sum := by
  intro L
  induction L with
  | nil => rfl
  | cons a t ih =>
    by_cases ha : a.isEmpty
    · simp [List.filter_cons, ha, ih, hf a ha]
    · simp [List.filter_cons, ha, ih]

theorem countB_safeJoinLines (l : List String) (hl : ∀ x ∈ l, '\n' ∉ x.data) :
    (splitNl (safeJoinLines l).data).countP bulletP = nECount l := by
  show (splitNl (joinNlData _)).countP bulletP = _
  rw [countB_joinNlData, List.map_map, List.map_map]
  have hone : ∀ x ∈ l.filter (fun x => !x.isEmpty),
      (splitNl (("- " ++ x) : String).data).countP bulletP = 1 := by
    intro x hx
    have hxl : x ∈ l := (List.mem_filter.mp hx).1
    have hdata : (("- " ++ x) : String).data = '-' :: ' ' :: x.data := by
      rw [strData_append]; rfl
    rw [hdata, countB_no_nl, bulletP_dash]
    · rfl
    · intro hmem
      rcases List.mem_cons.mp hmem with h | h
      · exact absurd h (by decide)
      · rcases List.mem_cons.mp h with h | h
        · exact absurd h (by decide)
        · exact hl x hxl h
  calc ((l.filter (fun x => !x.isEmpty)).map _).sum
      = ((l.filter (fun x => !x.isEmpty)).map (fun _ => (1 : Nat))).sum := by
        apply congrArg
        exact List.map_congr_left hone
    _ = (l.filter (fun x => !x.isEmpty)).length := sum_map_one _
    _ = nECount l := rfl

theorem sectionCount (hdrNl hdrBase : String) (l : List String)
    (hsplit : hdrNl.data = hdrBase.data ++ ['\n'])
    (hzero : (splitNl hdrBase.data).countP bulletP = 0)
    (hl : ∀ x ∈ l, '\n' ∉ x.data) :
    (splitNl (hdrNl ++ safeJoinLines l).data).countP bulletP = nECount l := by
  rw [strData_append, hsplit, List.append_assoc, List.singleton_append,
    countB_append_nl, hzero, countB_safeJoinLines l hl]
  omega

theorem countB_greet (g : String) (hg : '\n' ∉ g.data) :
    (splitNl ("🕊️ " ++ g).data).countP bulletP = 0 := by
  have hdata : ("🕊️ " ++ g).data = '🕊' :: '️' :: ' ' :: g.data := by
    rw [strData_append]; rfl
  rw [hdata, countB_no_nl]
  · rw [bulletP_cons_ne '🕊' _ (by decide)]
    rfl
  · intro hmem
    simp only [List.mem_cons] at hmem
    rcases hmem with h | h | h | h
    · exact absurd h (by decide)
    · exact absurd h (by decide)
    · exact absurd h (by decide)
    · exact hg h

/-- C5 (amended): the short card renders exactly the non-empty entries of each
of the three backend lists as bullet items — the code applies no `slice(0,3)`
cap, so the ≤3-per-list bound holds exactly when the generation backend's
reply already respects it (the prompt asks for at most 3, but nothing
enforces it).  Stated for entries without embedded newlines, which is what a
line count measures. -/
theorem formatShortCard_itemCount (r : Reduced) (mode : String)
    (hg : '\n' ∉ (scGreeting r).data)
    (h1 : ∀ x ∈ scSummary r, '\n' ∉ x.data)
    (h2 : ∀ x ∈ scActions r, '\n' ∉ x.data)
    (h3 : ∀ x ∈ scFlags r, '\n' ∉ x.data) :
    countBullets (formatShortCard r mode) =
      nECount (scSummary r) + nECount (scActions r) + nECount (scFlags r) := by
  have hhdr : (splitNl (if mode = "surgery" then ("■診察メモ（手術のご説明）" : String)
      else "■診察メモ").data).countP bulletP = 0 := by
    split
    · decide
    · decide
  have hgreet : (splitNl ("🕊️ " ++ (if (scGreeting r).isEmpty then ("受診おつかれさまでした。" : String)
      else scGreeting r)).data).countP bulletP = 0 := by
    apply countB_greet
    split
    · decide
    · exact hg
  have hsec1 : (splitNl (if scSummary r ≠ [] then
      "🧾 きょうの要点\n" ++ safeJoinLines (scSummary r) else "").data).countP bulletP =
      nECount (scSummary r) := by
    by_cases hl : scSummary r = []
    · rw [if_neg (by simp [hl])]
      rw [hl]
      decide
    · rw [if_pos hl]
      exact sectionCount _ "🧾 きょうの要点" _ (by decide) (by decide) h1
  have hsec2 : (splitNl (if scActions r ≠ [] then
      "✅ あなたがやること\n" ++ safeJoinLines (scActions r) else "").data).countP bulletP =
      nECount (scActions r) := by
    by_cases hl : scActions r = []
    · rw [if_neg (by simp [hl])]
      rw [hl]
      decide
    · rw [if_pos hl]
      exact sectionCount _ "✅ あなたがやること" _ (by decide) (by decide) h2
  have hsec3 : (splitNl (if scFlags r ≠ [] then
      "🚩 こんな時は連絡/受診\n" ++ safeJoinLines (scFlags r) else "").data).countP bulletP =
      nECount (scFlags r) := by
    by_cases hl : scFlags r = []
    · rw [if_neg (by simp [hl])]
      rw [hl]
      decide
    · rw [if_pos hl]
      exact sectionCount _ "🚩 こんな時は連絡/受診" _ (by decide) (by decide) h3
  unfold formatShortCard
  rw [countBullets_joinNl, sum_map_filter_isEmpty _ countB_empty_string]
  simp only [List.map_cons, List.map_nil, List.sum_cons, List.sum_nil]
  rw [hhdr, hgreet, hsec1, hsec2, hsec3]
  omega

/-- C5 (counterexample): with four `summary_top3` entries (and the other two
lists empty) the delivered short card contains four bullet items, all from the
summary list, exceeding the claimed 3-item bound — the formatter applies no
truncation. -/
theorem formatShortCard_cex :
    3 < countBullets (formatShortCard overfullReduced "normal") := by decide

/-- A concrete run of the amended C5: two summary points, one action, no red
flags, rendered as exactly 2 + 1 + 0 bullet lines. -/
theorem formatShortCard_itemCount_witness :
    countBullets (formatShortCard (⟨some ⟨"こんにちは", ["要点A", "要点B"], ["行動A"], []⟩⟩ : Reduced)
      "normal") =
      nECount ["要点A", "要点B"] + nECount ["行動A"] + nECount ([] : List String) :=
  formatShortCard_itemCount _ "normal" (by decide) (by decide) (by decide) (by decide)

/-- C7: whenever the completed job's transcript has fewer than 15 characters
after removing all whitespace (the empty transcript included), the pipeline
answers `DONE` with the fixed short-recording placeholder and issues zero
generation calls, for every generation oracle and every fuel. -/
theorem pollPipeline_short (gen : Nat → Option Reduced) (fuel : Nat) (t : String)
    (hshort : (jsStripWs t).length < 15) :
    pollPipeline gen fuel t = some ⟨"DONE", placeholderMsg, 0⟩ := by
  simp [pollPipeline, hshort]

/-- A concrete run of C7 on the two-character transcript はい. -/
theorem pollPipeline_short_witness :
    pollPipeline (fun _ => none) 0 "はい" = some ⟨"DONE", placeholderMsg, 0⟩ :=
  pollPipeline_short (fun _ => none) 0 "はい" (by decide)

/-- C6 (counterexample): the code-fenced reply does not end in a closing brace
(the fence follows it), so `/\x7b[\s\S]*\x7d$/` fails to match, `JSON.parse`
is fed the whole fenced text, throws, and the parser answers the fallback
empty shape — not the object the identical unfenced reply parses to. -/
theorem geminiJson_cex :
    geminiJson "```json\n\x7b\"summary\":\"x\"\x7d\n```".data = defaultShape ∧
    geminiJson "\x7b\"summary\":\"x\"\x7d".data =
      Json.jobj [("summary", Json.jstr "x")] ∧
    defaultShape ≠ Json.jobj [("summary", Json.jstr "x")] := by
  refine ⟨rfl, rfl, ?_⟩
  intro h
  simp [defaultShape] at h

theorem findIdx_append_head {α : Type} (p : α → Bool) (pre : List α) (x : α) (rest : List α)
    (hpre : ∀ y ∈ pre, p y = false) (hx : p x = true) :
    (pre ++ x :: rest).findIdx p = pre.length := by
  induction pre with
  | nil => simp [List.findIdx_cons, hx]
  | cons a t ih =>
    have ha : p a = false := hpre a (by simp)
    simp only [List.cons_append, List.findIdx_cons, ha, cond_false, List.length_cons]
    rw [ih (fun y hy => hpre y (by simp [hy]))]

/-- C6 (amended): the brace-match extraction tolerates any brace-free preamble
before the JSON object, as long as the object closes the reply: the parser
then recovers exactly the same value as for the bare object.  A reply whose
object is followed by a closing code fence is not stripped — it falls back to
the empty default shape (see the counterexample). -/
theorem geminiJson_prefix_invariant (p b : List Char)
    (hp : '\x7b' ∉ p)
    (hh : b.head? = some '\x7b')
    (hl : b.getLast? = some '\x7d') :
    geminiJson (p ++ b) = geminiJson b := by
  obtain ⟨brest, rfl⟩ : ∃ brest, b = '\x7b' :: brest := by
    cases b with
    | nil => simp at hh
    | cons x t =>
      have hx : x = '\x7b' := by simpa using hh
      exact ⟨t, by rw [hx]⟩
  have hpre : ∀ y ∈ p, (y == '\x7b') = false := by
    intro y hy
    simp only [beq_eq_false_iff_ne, ne_eq]
    intro e; exact hp (e ▸ hy)
  have hcond1 : (p ++ '\x7b' :: brest).getLast? = some '\x7d' := by
    rw [List.getLast?_append, hl]
    rfl
  have hextract1 : extractBrace (p ++ '\x7b' :: brest) = '\x7b' :: brest := by
    unfold extractBrace
    rw [if_pos ⟨hcond1, by simp⟩,
      findIdx_append_head _ p _ brest hpre (by decide), List.drop_left]
  have hextract2 : extractBrace ('\x7b' :: brest) = '\x7b' :: brest := by
    unfold extractBrace
    rw [if_pos ⟨hl, by simp⟩]
    simp [List.findIdx_cons]
  unfold geminiJson
  rw [hextract1, hextract2]

/-- A concrete run of the amended C6: an opening-fence preamble before a bare
object changes nothing. -/
theorem geminiJson_prefix_invariant_witness :
    geminiJson ("```json\n".data ++ "\x7b\x7d".data) = geminiJson "\x7b\x7d".data :=
  geminiJson_prefix_invariant "```json\n".data "\x7b\x7d".data
    (by decide) (by decide) (by decide)

theorem chunksOfAux_flatten {α : Type} (k : Nat) (hk : 1 ≤ k) :
    ∀ fuel (l : List α), l.length ≤ fuel → (chunksOfAux k fuel l).flatten = l := by
  intro fuel
  induction fuel with
  | zero =>
    intro l hl
    have : l = [] := List.length_eq_zero.mp (by omega)
    subst this; rfl
  | succ n ih =>
    intro l hl
    cases l with
    | nil => rfl
    | cons a t =>
      simp only [chunksOfAux, List.flatten_cons]
      rw [ih ((a :: t).drop k) (by
        rw [List.length_drop]
        simp only [List.length_cons] at hl ⊢
        omega)]
      exact List.take_append_drop k (a :: t)

theorem chunksOfAux_length {α : Type} (k : Nat) (hk : 1 ≤ k) :
    ∀ fuel (l : List α), l.length ≤ fuel →
      (chunksOfAux k fuel l).length = (l.length + k - 1) / k := by
  intro fuel
  induction fuel with
  | zero =>
    intro l hl
    have : l = [] := List.length_eq_zero.mp (by omega)
    subst this
    simp only [chunksOfAux, List.length_nil]
    exact (Nat.div_eq_of_lt (by omega)).symm
  | succ n ih =>
    intro l hl
    cases l with
    | nil =>
      simp only [chunksOfAux, List.length_nil]
      exact (Nat.div_eq_of_lt (by omega)).symm
    | cons a t =>
      simp only [chunksOfAux, List.length_cons]
      rw [ih ((a :: t).drop k) (by
        rw [List.length_drop]
        simp only [List.length_cons] at hl ⊢
        omega)]
      rw [List.length_drop]
      simp only [List.length_cons]
      have hsplit : t.length + 1 + k - 1 = (t.length + 1 - 1) + k := by omega
      rw [hsplit, Nat.add_div_right _ (by omega)]
      by_cases hle : t.length + 1 ≤ k
      · have h0 : t.length + 1 - k = 0 := by omega
        rw [h0]
        rw [Nat.div_eq_of_lt (show 0 + k - 1 < k by omega)]
        rw [Nat.div_eq_of_lt (show t.length + 1 - 1 < k by omega)]
      · have heq : t.length + 1 - k + k - 1 = t.length + 1 - 1 := by omega
        rw [heq]

theorem chunksOfAux_mem {α : Type} (k : Nat) (hk : 1 ≤ k) :
    ∀ fuel (l : List α) b, l.length ≤ fuel → b ∈ chunksOfAux k fuel l →
      b ≠ [] ∧ b.length ≤ k ∧ ∀ x ∈ b, x ∈ l := by
  intro fuel
  induction fuel with
  | zero =>
    intro l b hl hb
    have : l = [] := List.length_eq_zero.mp (by omega)
    subst this
    simp [chunksOfAux] at hb
  | succ n ih =>
    intro l b hl hb
    cases l with
    | nil => simp [chunksOfAux] at hb
    | cons a t =>
      simp only [chunksOfAux] at hb
      rcases List.mem_cons.mp hb with hb | hb
      · subst hb
        refine ⟨?_, ?_, ?_⟩
        · obtain ⟨k', rfl⟩ : ∃ k', k = k' + 1 := ⟨k - 1, by omega⟩
          simp [List.take_succ_cons]
        · rw [List.length_take]; omega
        · intro x hx; exact List.mem_of_mem_take hx
      · obtain ⟨h1, h2, h3⟩ := ih ((a :: t).drop k) b (by
          rw [List.length_drop]
          simp only [List.length_cons] at hl ⊢
          omega) hb
        exact ⟨h1, h2, fun x hx => List.mem_of_mem_drop (h3 x hx)⟩

theorem enumFrom_map_with_snd {α β : Type} (f : α → β) :
    ∀ (l : List α) (n : Nat), (l.enumFrom n).map (fun p => f p.snd) = l.map f := by
  intro l
  induction l with
  | nil => intro n; rfl
  | cons a t ih => intro n; simp only [List.enumFrom_cons, List.map_cons, ih]

theorem snd_mem_of_mem_enumFrom {α : Type} :
    ∀ (l : List α) (n : Nat) (p : Nat × α), p ∈ l.enumFrom n → p.snd ∈ l := by
  intro l
  induction l with
  | nil => intro n p h; cases h
  | cons a t ih =>
    intro n p h
    simp only [List.enumFrom_cons] at h
    rcases List.mem_cons.mp h with h | h
    · subst h; simp
    · exact List.mem_cons_of_mem _ (ih (n + 1) p h)

theorem isPrefixOf_append : ∀ (a b : List Char), a.isPrefixOf (a ++ b) = true := by
  intro a b
  induction a with
  | nil => simp [List.isPrefixOf]
  | cons x t ih => simp [List.isPrefixOf, ih]

theorem isPrefixOf_length_le {α : Type} [BEq α] :
    ∀ (a b : List α), a.isPrefixOf b = true → a.length ≤ b.length := by
  intro a
  induction a with
  | nil => intro b _; simp
  | cons x t ih =>
    intro b h
    cases b with
    | nil => simp [List.isPrefixOf] at h
    | cons y u =>
      simp only [List.isPrefixOf, Bool.and_eq_true] at h
      have := ih u h.2
      simp only [List.length_cons]
      omega

theorem tmpName_data (dest : String) (r b : Nat) :
    (tmpName dest r b).data =
      (dest ++ ".compose.").data ++ (toString r ++ "." ++ toString b).data := by
  simp [tmpName, strData_append, List.append_assoc]

theorem hasComposePfx_tmpName (dest : String) (r b : Nat) :
    hasComposePfx dest (tmpName dest r b) = true := by
  unfold hasComposePfx
  rw [tmpName_data]
  exact isPrefixOf_append _ _

theorem hasComposePfx_dest (dest : String) : hasComposePfx dest dest = false := by
  unfold hasComposePfx
  by_contra hc
  have h' : (dest ++ ".compose.").data.isPrefixOf dest.data = true := by
    simpa using hc
  have hle := isPrefixOf_length_le _ _ h'
  rw [strData_append, List.length_append] at hle
  have h9 : (".compose." : String).data.length = 9 := rfl
  omega

theorem tmpName_ne_dest (dest : String) (r b : Nat) : tmpName dest r b ≠ dest := by
  intro h
  have h1 : hasComposePfx dest (tmpName dest r b) = true := hasComposePfx_tmpName dest r b
  rw [h, hasComposePfx_dest] at h1
  cases h1

theorem composeBatch_content (dest : String) (round bi : Nat) (batch : List GcsObj) :
    (composeBatch dest round bi batch).fst.snd = (batch.map Prod.snd).flatten := by
  rcases batch with _ | ⟨x, _ | ⟨y, t⟩⟩
  · rfl
  · simp [composeBatch]
  · rfl

theorem composeBatch_name (dest : String) (round bi : Nat) (batch : List GcsObj) :
    (∃ b, batch = [b] ∧ (composeBatch dest round bi batch).fst = b) ∨
    (composeBatch dest round bi batch).fst.fst = tmpName dest round bi := by
  rcases batch with _ | ⟨x, _ | ⟨y, t⟩⟩
  · right; rfl
  · left; exact ⟨x, rfl, rfl⟩
  · right; rfl

theorem composeBatch_ops (dest : String) (round bi : Nat) (batch : List GcsObj)
    (hne : batch ≠ []) (hlen : batch.length ≤ 32) :
    ∀ op ∈ (composeBatch dest round bi batch).snd,
      ∃ srcs, op = GcsOp.compose srcs (tmpName dest round bi) ∧
        2 ≤ srcs.length ∧ srcs.length ≤ 32 := by
  rcases batch with _ | ⟨x, _ | ⟨y, t⟩⟩
  · exact absurd rfl hne
  · intro op hop; simp [composeBatch] at hop
  · intro op hop
    simp only [composeBatch] at hop
    rcases List.mem_cons.mp hop with h | h
    · subst h
      refine ⟨(x :: y :: t).map Prod.fst, rfl, ?_, ?_⟩
      · simp only [List.length_map, List.length_cons]; omega
      · simpa using hlen
    · cases h

theorem chunksOf_flatten {α : Type} (l : List α) : (chunksOf 32 l).flatten = l :=
  chunksOfAux_flatten 32 (by omega) l.length l le_rfl

theorem composeRound_length (dest : String) (round : Nat) (queue : List GcsObj) :
    (composeRound dest round queue).fst.length = (queue.length + 31) / 32 := by
  unfold composeRound
  dsimp only
  rw [List.length_map, List.enum_length]
  exact chunksOfAux_length 32 (by omega) queue.length queue le_rfl

theorem composeRound_content (dest : String) (round : Nat) (queue : List GcsObj) :
    ((composeRound dest round queue).fst.map Prod.snd).flatten =
      (queue.map Prod.snd).flatten := by
  unfold composeRound
  dsimp only
  rw [List.map_map]
  have h1 : ((chunksOf 32 queue).enum.map
      (Prod.snd ∘ fun p => (composeBatch dest round p.fst p.snd).fst)) =
      (chunksOf 32 queue).enum.map (fun p => (p.snd.map Prod.snd).flatten) :=
    List.map_congr_left (fun p _ => composeBatch_content dest round p.fst p.snd)
  rw [h1]
  rw [show (chunksOf 32 queue).enum = (chunksOf 32 queue).enumFrom 0 from rfl]
  have h2 : (List.enumFrom 0 (chunksOf 32 queue)).map
      (fun p => (p.snd.map Prod.snd).flatten) =
      (chunksOf 32 queue).map (fun b => (b.map Prod.snd).flatten) :=
    enumFrom_map_with_snd (fun b => (b.map Prod.snd).flatten) (chunksOf 32 queue) 0
  rw [h2]
  calc ((chunksOf 32 queue).map (fun b => (b.map Prod.snd).flatten)).flatten
      = (((chunksOf 32 queue).map (List.map Prod.snd)).map List.flatten).flatten := by
        rw [List.map_map]
        rfl
    _ = (((chunksOf 32 queue).map (List.map Prod.snd)).flatten).flatten :=
        List.flatten_flatten.symm
    _ = (((chunksOf 32 queue).flatten).map Prod.snd).flatten := by
        rw [List.map_flatten]
    _ = (queue.map Prod.snd).flatten := by rw [chunksOf_flatten]

theorem composeRound_names (dest : String) (round : Nat) (queue : List GcsObj)
    (hd : ∀ o ∈ queue, o.fst ≠ dest) :
    ∀ o ∈ (composeRound dest round queue).fst, o.fst ≠ dest := by
  intro o ho
  unfold composeRound at ho
  dsimp only at ho
  rcases List.mem_map.mp ho with ⟨p, hp, rfl⟩
  rcases composeBatch_name dest round p.fst p.snd with ⟨b, hb, hbe⟩ | hn
  · rw [hbe]
    have hbm : b ∈ p.snd := by rw [hb]; simp
    have hp' : p ∈ (chunksOf 32 queue).enumFrom 0 := hp
    have hpsnd : p.snd ∈ chunksOfAux 32 queue.length queue :=
      snd_mem_of_mem_enumFrom _ 0 p hp'
    have hmem :=
      (chunksOfAux_mem 32 (by omega) queue.length queue p.snd le_rfl hpsnd).2.2 b hbm
    exact hd b hmem
  · rw [hn]
    exact tmpName_ne_dest dest round p.fst

theorem composeRound_ops (dest : String) (round : Nat) (queue : List GcsObj) :
    ∀ op ∈ (composeRound dest round queue).snd,
      ∃ srcs bi, op = GcsOp.compose srcs (tmpName dest round bi) ∧
        2 ≤ srcs.length ∧ srcs.length ≤ 32 := by
  intro op hop
  unfold composeRound at hop
  dsimp only at hop
  rcases List.mem_flatten.mp hop with ⟨l, hl, hop2⟩
  rcases List.mem_map.mp hl with ⟨p, hp, rfl⟩
  have hp' : p ∈ (chunksOf 32 queue).enumFrom 0 := hp
  have hpsnd : p.snd ∈ chunksOfAux 32 queue.length queue :=
    snd_mem_of_mem_enumFrom _ 0 p hp'
  obtain ⟨hne, hlen, -⟩ :=
    chunksOfAux_mem 32 (by omega) queue.length queue p.snd le_rfl hpsnd
  obtain ⟨srcs, heq, h2, h32⟩ :=
    composeBatch_ops dest round p.fst p.snd hne hlen op hop2
  exact ⟨srcs, p.fst, heq, h2, h32⟩

theorem composeLoopAux_spec (dest : String) :
    ∀ fuel (round : Nat) (queue : List GcsObj),
      queue ≠ [] → queue.length ≤ fuel →
      (∀ o ∈ queue, o.fst ≠ dest) →
      ∃ x ops r,
        composeLoopAux dest fuel round queue = ([x], ops, r) ∧
        x.fst ≠ dest ∧
        x.snd = (queue.map Prod.snd).flatten ∧
        r = Nat.clog 32 queue.length ∧
        (∀ op ∈ ops, ∃ srcs rr bi, op = GcsOp.compose srcs (tmpName dest rr bi) ∧
          2 ≤ srcs.length ∧ srcs.length ≤ 32) := by
  intro fuel
  induction fuel with
  | zero =>
    intro round queue hne hlen _
    exfalso
    have : 0 < queue.length := List.length_pos.mpr hne
    omega
  | succ n ih =>
    intro round queue hne hlen hd
    by_cases h1 : queue.length ≤ 1
    · obtain ⟨x, rfl⟩ : ∃ x, queue = [x] := by
        cases queue with
        | nil => exact absurd rfl hne
        | cons a t =>
          cases t with
          | nil => exact ⟨a, rfl⟩
          | cons b u => simp at h1
      refine ⟨x, [], 0, ?_, hd x (by simp), by simp, ?_, by simp⟩
      · simp [composeLoopAux]
      · exact (Nat.clog_of_right_le_one (by simp) 32).symm
    · have hge2 : 2 ≤ queue.length := by omega
      have hqlen := composeRound_length dest round queue
      have hq'pos : 0 < (composeRound dest round queue).fst.length := by
        rw [hqlen]; omega
      have hq'ne : (composeRound dest round queue).fst ≠ [] :=
        List.length_pos.mp hq'pos
      have hlt : (composeRound dest round queue).fst.length < queue.length := by
        rw [hqlen]; omega
      obtain ⟨x, ops, r, hrec, hx1, hx2, hr, hops⟩ :=
        ih (round + 1) (composeRound dest round queue).fst hq'ne (by omega)
          (composeRound_names dest round queue hd)
      refine ⟨x, (composeRound dest round queue).snd ++ ops, r + 1, ?_, hx1, ?_, ?_, ?_⟩
      · simp only [composeLoopAux, if_neg h1]
        rw [hrec]
      · rw [hx2, composeRound_content]
      · rw [hr, hqlen, Nat.clog_of_two_le (by norm_num) hge2]
        have h31 : queue.length + 32 - 1 = queue.length + 31 := by omega
        rw [h31]
      · intro op hop
        rcases List.mem_append.mp hop with h | h
        · obtain ⟨srcs, bi, heq, h2, h32⟩ := composeRound_ops dest round queue op h
          exact ⟨srcs, round, bi, heq, h2, h32⟩
        · exact hops op h

theorem composeLoopAux_arity (dest : String) :
    ∀ fuel (round : Nat) (queue : List GcsObj) (srcs : List String) (d : String),
      GcsOp.compose srcs d ∈ (composeLoopAux dest fuel round queue).snd.fst →
      2 ≤ srcs.length ∧ srcs.length ≤ 32 := by
  intro fuel
  induction fuel with
  | zero =>
    intro round queue srcs d h
    simp [composeLoopAux] at h
  | succ n ih =>
    intro round queue srcs d h
    by_cases h1 : queue.length ≤ 1
    · simp [composeLoopAux, if_pos h1] at h
    · simp only [composeLoopAux, if_neg h1] at h
      rcases List.mem_append.mp h with h | h
      · obtain ⟨srcs', bi, heq, h2, h32⟩ := composeRound_ops dest round queue _ h
        injection heq with e1 e2
        subst e1
        exact ⟨h2, h32⟩
      · exact ih (round + 1) _ srcs d h

/-- C2: for every non-empty ordered source list (whose names differ from the
destination and do not carry its compose-prefix, as is the case for the
session chunk objects), `composeMany` terminates and: every compose call takes
at most 32 sources and targets a compose-prefixed intermediate; the batching
runs for exactly ⌈log₃₂ N⌉ rounds; the run ends with a plain copy of the last
surviving object — whose content is the in-order concatenation of all source
contents — to exactly the requested destination name (never a single-source
compose); and after the best-effort deletion of the compose-prefixed
intermediates exactly one assembled object, the destination, remains. -/
theorem composeMany_spec (objects : List GcsObj) (dest : String)
    (hne : objects ≠ [])
    (hnames : ∀ o ∈ objects, o.fst ≠ dest ∧ hasComposePfx dest o.fst = false) :
    (∀ srcs d, GcsOp.compose srcs d ∈ (composeMany objects dest).fst →
      srcs.length ≤ 32 ∧ hasComposePfx dest d = true) ∧
    composeRounds objects dest = Nat.clog 32 objects.length ∧
    (∃ survivor,
      (composeMany objects dest).fst.getLast? = some (GcsOp.copy survivor dest) ∧
      (composeMany objects dest).snd = [(survivor, (objects.map Prod.snd).flatten)]) ∧
    afterCleanup (composeMany objects dest).fst dest = [dest] := by
  obtain ⟨x, ops, r, hrun, hx1, hx2, hr, hops⟩ :=
    composeLoopAux_spec dest objects.length 0 objects hne le_rfl
      (fun o ho => (hnames o ho).1)
  have hcm : composeMany objects dest = (ops ++ [GcsOp.copy x.fst dest], [x]) := by
    unfold composeMany
    rw [hrun]
    simp [hx1]
  have hx : x = (x.fst, (objects.map Prod.snd).flatten) := by
    rw [← hx2]
  refine ⟨?_, ?_, ⟨x.fst, ?_, ?_⟩, ?_⟩
  · intro srcs d hmem
    rw [hcm] at hmem
    rcases List.mem_append.mp hmem with h | h
    · obtain ⟨srcs', rr, bi, heq, h2, h32⟩ := hops _ h
      injection heq with e1 e2
      subst e1; subst e2
      exact ⟨h32, hasComposePfx_tmpName dest rr bi⟩
    · rcases List.mem_cons.mp h with h | h
      · exact absurd h (by simp)
      · cases h
  · unfold composeRounds
    rw [hrun]
    exact hr
  · rw [hcm]
    exact List.getLast?_concat ops
  · rw [hcm]
    exact congrArg (fun y => [y]) hx
  · rw [hcm]
    unfold afterCleanup createdNames
    rw [List.map_append, List.filter_append]
    have hleft : ((ops.map (fun op => match op with
        | .compose _ d => d
        | .copy _ d => d)).filter (fun n => !hasComposePfx dest n)) = [] := by
      rw [List.filter_eq_nil_iff]
      intro n hn
      rcases List.mem_map.mp hn with ⟨op, hop, rfl⟩
      obtain ⟨srcs, rr, bi, heq, -, -⟩ := hops op hop
      subst heq
      simp [hasComposePfx_tmpName]
    rw [hleft]
    simp [hasComposePfx_dest]

/-- A concrete run of C2 on three one-byte chunks composed into `out`. -/
theorem composeMany_spec_witness :
    (∀ srcs d, GcsOp.compose srcs d ∈ (composeMany [("a", [0]), ("b", [1]), ("c", [2])] "out").fst →
      srcs.length ≤ 32 ∧ hasComposePfx "out" d = true) ∧
    composeRounds [("a", [0]), ("b", [1]), ("c", [2])] "out" =
      Nat.clog 32 ([("a", [0]), ("b", [1]), ("c", [2])] : List GcsObj).length ∧
    (∃ survivor,
      (composeMany [("a", [0]), ("b", [1]), ("c", [2])] "out").fst.getLast? =
        some (GcsOp.copy survivor "out") ∧
      (composeMany [("a", [0]), ("b", [1]), ("c", [2])] "out").snd =
        [(survivor, (([("a", [0]), ("b", [1]), ("c", [2])] : List GcsObj).map Prod.snd).flatten)]) ∧
    afterCleanup (composeMany [("a", [0]), ("b", [1]), ("c", [2])] "out").fst "out" = ["out"] :=
  composeMany_spec [("a", [0]), ("b", [1]), ("c", [2])] "out" (by decide) (by decide)

/-- C10: every compose call issued anywhere in `composeMany` — in any round —
has between 2 and 32 sources: a singleton batch is forwarded to the next round
unchanged and the final transfer is a plain copy, so a single-source compose
is never issued. -/
theorem composeMany_arity (objects : List GcsObj) (dest : String) :
    ∀ srcs d, GcsOp.compose srcs d ∈ (composeMany objects dest).fst →
      2 ≤ srcs.length ∧ srcs.length ≤ 32 := by
  intro srcs d hmem
  have harity := composeLoopAux_arity dest objects.length 0 objects srcs d
  unfold composeMany at hmem
  rcases hq : composeLoopAux dest objects.length 0 objects with ⟨q, lops, r2⟩
  rw [hq] at hmem harity
  dsimp only at hmem harity
  rcases q with _ | ⟨o, _ | ⟨o2, t2⟩⟩
  · exact harity hmem
  · dsimp only at hmem
    by_cases ho : o.fst ≠ dest
    · rw [if_pos ho] at hmem
      rcases List.mem_append.mp hmem with h | h
      · exact harity h
      · rcases List.mem_cons.mp h with h | h
        · exact absurd h (by simp)
        · cases h
    · rw [if_neg ho] at hmem
      exact harity hmem
  · exact harity hmem

/-- A concrete run of C10: the single compose issued for two chunks has
exactly two sources. -/
theorem composeMany_arity_witness :
    2 ≤ (["a", "b"] : List String).length ∧ (["a", "b"] : List String).length ≤ 32 :=
  composeMany_arity [("a", [0]), ("b", [1])] "out" ["a", "b"] "out.compose.0.0"
    (by decide)
